import Mathlib

/-!
Verification development for the MDAP (Multi-candidate Decision Aggregation
Protocol) repository.

The run loop is embedded from `src/sdk/python/examples/mdap/src/mdap/demo_machine.py`
(`run`, lines 75-114).  The voting aggregator, metrics, configuration
validation and the reference-domain move validator live in modules of this
repository whose source is not present under `src/` (only callers and
re-export declarations are); those parts are modelled from the spec, and each
such definition carries a doc comment saying so.
-/

/-- Model of the dynamically typed Python values that flow through the demo
run loop: integers, `None`, lists and tuples.  The loop's state
(`context['pegs']`, `context['goal']`, the values under `predicted_state`
and `move`) are such values. -/
inductive PyVal where
  | int (n : Int)
  | none
  | list (elems : List PyVal)
  | tuple (elems : List PyVal)

mutual

/-- Python structural equality `==` on `PyVal`: integers compare by value,
`None` equals `None`, lists compare elementwise with lists, tuples with
tuples; a list is never `==` to a tuple.  This is the comparison the run
loop's goal test `context['pegs'] == context['goal']` performs. -/
def pyEq : PyVal → PyVal → Bool
  | .int a, .int b => a == b
  | .none, .none => true
  | .list a, .list b => pyEqList a b
  | .tuple a, .tuple b => pyEqList a b
  | _, _ => false

/-- Elementwise `==` on Python sequences. -/
def pyEqList : List PyVal → List PyVal → Bool
  | [], [] => true
  | x :: xs, y :: ys => pyEq x y && pyEqList xs ys
  | _, _ => false

end

mutual

/-- Modelled from the spec: `StateCodec.canonicalize` (4.1), the codec source
is not under `src/`.  It collapses superficial representational variance:
every sequence (list or tuple) is normalised to a list, recursively. -/
def canonicalize : PyVal → PyVal
  | .int n => .int n
  | .none => .none
  | .list a => .list (canonList a)
  | .tuple a => .list (canonList a)

/-- Canonicalization mapped over the elements of a sequence. -/
def canonList : List PyVal → List PyVal
  | [] => []
  | x :: xs => canonicalize x :: canonList xs

end

/-- Modelled from the spec: `StateCodec.equals` (4.1) — equality of the
canonical forms. -/
def codecEq (a b : PyVal) : Bool :=
  pyEq (canonicalize a) (canonicalize b)

/-- The dictionary returned by a successful `mdap_hooks.voting_call`; the
run loop reads it with `result.get('predicted_state', context['pegs'])` and
`result.get('move')`.  A field holds `Option.none` when the key is absent. -/
structure VoteResult where
  predicted_state : Option PyVal
  move : Option PyVal

/-- The run loop's `context` dictionary (demo_machine.py lines 75-81). -/
structure Context where
  pegs : PyVal
  goal : PyVal
  previous_move : PyVal
  step : Nat
  solved : Bool

/-- One entry of the `trace` list (demo_machine.py lines 83 and 110-114).
`move` is `Option.none` for the initial entry, which has no `'move'` key. -/
structure TraceEntry where
  pegs : PyVal
  step : Nat
  move : Option PyVal

/-- Models Python `list(p)` applied to one peg: a list or tuple becomes a
list with the same elements (one level deep).  On a non-sequence value
Python would raise `TypeError`; the model keeps such a value unchanged —
that case is outside the behaviours any claim exercises. -/
def listOf : PyVal → PyVal
  | .list es => .list es
  | .tuple es => .list es
  | v => v

/-- Models the comprehension `[list(p) for p in v]` (demo_machine.py lines
76, 83 and 111): the outer sequence becomes a list and each element goes
through `list(p)`, so the outer two levels are coerced to lists while
deeper values are unchanged.  As with `listOf`, a non-sequence `v` (a
`TypeError` in Python) is kept unchanged. -/
def copyPegs : PyVal → PyVal
  | .list es => .list (es.map listOf)
  | .tuple es => .list (es.map listOf)
  | v => v

/-- The `while context['step'] < 20` loop of `run` (demo_machine.py lines
85-114), embedded with a fuel argument bounding the recursion depth.  Each
iteration that recurses increments `step` by one and the guard requires
`step < 20`, so any fuel with `20 ≤ fuel + step` yields the loop's exact
behaviour (`runFrom_fuel_irrelevant` below); `run` starts at `step = 0`
with fuel `20`.  Body, in source order: goal test by Python `==`
(`pyEq`), `voting_call` (the `voter` argument), `break` on `None`,
otherwise update `pegs`/`previous_move`/`step` raw (line 106 stores
`predicted_state` without normalization) and append a trace entry whose
pegs are the `[list(p) for p in context['pegs']]` copy of line 111. -/
def runFrom (voter : Context → Option VoteResult) :
    Nat → Context → List TraceEntry → Context × List TraceEntry
  | 0, ctx, trace => (ctx, trace)
  | fuel + 1, ctx, trace =>
    if ctx.step < 20 then
      if pyEq ctx.pegs ctx.goal then
        ({ ctx with solved := true }, trace)
      else
        match voter ctx with
        | Option.none => (ctx, trace)
        | Option.some r =>
          let pegs' := r.predicted_state.getD ctx.pegs
          let mv := r.move.getD PyVal.none
          runFrom voter fuel
            { pegs := pegs', goal := ctx.goal, previous_move := mv,
              step := ctx.step + 1, solved := ctx.solved }
            (trace ++ [⟨copyPegs pegs', ctx.step + 1, Option.some mv⟩])
    else (ctx, trace)

/-- The whole of `run`'s stepping phase: the initial context stores the
`[list(p) for p in initial_pegs]` copy of the initial state (line 76), the
initial one-entry trace applies the same comprehension to those context
pegs again (line 83), then the loop runs. -/
def run (voter : Context → Option VoteResult) (initial goal : PyVal) :
    Context × List TraceEntry :=
  runFrom voter 20 ⟨copyPegs initial, goal, PyVal.none, 0, false⟩
    [⟨copyPegs (copyPegs initial), 0, Option.none⟩]

/-- Modelled from the spec: `VoteTally` (section 3) — the mapping from
canonical key to the count of valid candidates sharing that key; the
`VotingAggregator` source is not under `src/`.  Keys appear once each, in
first-occurrence order, paired with their multiplicity in the candidate
list. -/
def MDAP.tally {α : Type} [DecidableEq α] (cs : List α) : List (α × Nat) :=
  cs.dedup.map (fun k => (k, cs.count k))

/-- Modelled from the spec: the triple returned by
`decide(tally, k_margin) -> (winning_key, margin, confident)` (section 4.4). -/
structure MDAP.Decision (α : Type) where
  winner : α
  margin : Nat
  confident : Bool

/-- Largest count appearing in a tally (`0` for the empty tally). -/
def maxCount {α : Type} (t : List (α × Nat)) : Nat :=
  t.foldr (fun p m => max p.2 m) 0

/-- Highest count among the entries of a tally whose key differs from `k`
(the spec's `second_count`, `0` when no other key exists). -/
def MDAP.secondCount {α : Type} [DecidableEq α] (t : List (α × Nat)) (k : α) : Nat :=
  maxCount (t.filter (fun p => !(p.1 == k)))

/-- Modelled from the spec: `decide(tally, k_margin)` (section 4.4), the
`VotingAggregator` source is not under `src/`.  Winner is a key of highest
count; `second_count` is the highest count among the remaining keys (`0`
when only one distinct key exists); `margin = winner_count − second_count`;
`confident = margin >= k_margin`.  An empty tally (all candidates invalid)
yields no decision — `Option.none`, the inconclusive
`no_valid_candidates` outcome. -/
def MDAP.decide {α : Type} [DecidableEq α] (cs : List α) (km : Nat) :
    Option (MDAP.Decision α) :=
  let t := MDAP.tally cs
  let c1 := maxCount t
  match List.find? (fun p => p.2 == c1) t with
  | Option.none => Option.none
  | Option.some (k, c) =>
    let c2 := MDAP.secondCount t k
    Option.some ⟨k, c - c2, Decidable.decide (km ≤ c - c2)⟩

/-- Red-flag reasons a decision round can be marked with (spec section 4.5
step 6). -/
inductive RedFlag where
  | low_confidence
  | tie
  | no_valid_candidates
deriving DecidableEq

/-- Modelled from the spec: `MDAPMetrics` (section 3); the metrics source is
not under `src/` — the demo only reads the snapshot
(`demo_machine.py` lines 132-142).  `red_flags_by_reason` is an
association list from reason to count. -/
structure MDAPMetrics where
  total_samples : Nat
  samples_per_step : List Nat
  total_red_flags : Nat
  red_flags_by_reason : List (RedFlag × Nat)

/-- Fresh metrics: all counters zero, no steps recorded. -/
def MDAPMetrics.init : MDAPMetrics := ⟨0, [], 0, []⟩

/-- Increment the count stored for `r`, inserting it at count `1` when
absent. -/
def bumpReason : List (RedFlag × Nat) → RedFlag → List (RedFlag × Nat)
  | [], r => [(r, 1)]
  | (r', c) :: rest, r =>
    if r' = r then (r', c + 1) :: rest else (r', c) :: bumpReason rest r

/-- Modelled from the spec: the per-step metrics update (section 4.5 step
8) — append this step's sample count to `samples_per_step`, add it to
`total_samples`, and when the step was red-flagged increment
`total_red_flags` and the flag's entry of `red_flags_by_reason`. -/
def MDAPMetrics.recordStep (m : MDAPMetrics) (samples : Nat)
    (flag : Option RedFlag) : MDAPMetrics :=
  { total_samples := m.total_samples + samples,
    samples_per_step := m.samples_per_step ++ [samples],
    total_red_flags := m.total_red_flags + (if flag.isSome then 1 else 0),
    red_flags_by_reason :=
      match flag with
      | Option.none => m.red_flags_by_reason
      | Option.some r => bumpReason m.red_flags_by_reason r }

/-- The spec's `MDAPMetrics` invariant (section 3). -/
def metricsInvariant (m : MDAPMetrics) : Prop :=
  m.samples_per_step.sum = m.total_samples ∧
    (m.red_flags_by_reason.map Prod.snd).sum = m.total_red_flags

/-- The ways constructing an `MDAPConfig` can be rejected (spec sections 6
and 7: fail fast on `max_candidates < k_margin` or non-positive values). -/
inductive ConfigError where
  | non_positive_k_margin
  | non_positive_max_candidates
  | max_candidates_below_k_margin
deriving DecidableEq

/-- The validated configuration record (spec section 3). -/
structure MDAPConfig where
  k_margin : Int
  max_candidates : Int

/-- Modelled from the spec: construction-time validation of `MDAPConfig`
(sections 6 and 7; the `declarative_mdap.mdap` module that defines
`MDAPConfig` is not under `src/`, only its re-export in
`declarative_mdap/__init__.py` is).  Construction is a pure function that
either returns the config or an error; no sampling is involved, so a
rejected configuration fails before any sampling call is issued. -/
def MDAPConfig.make (k_margin max_candidates : Int) :
    Except ConfigError MDAPConfig :=
  if k_margin ≤ 0 then Except.error ConfigError.non_positive_k_margin
  else if max_candidates ≤ 0 then Except.error ConfigError.non_positive_max_candidates
  else if max_candidates < k_margin then
    Except.error ConfigError.max_candidates_below_k_margin
  else Except.ok ⟨k_margin, max_candidates⟩

/-- A peg-and-disk state in canonical form: one list of disk sizes per peg,
bottom first, so the topmost (most accessible) disk is the last element —
`[[3, 2, 1], [], []]` stacks disk 1 on 2 on 3 on the first peg. -/
abbrev Pegs := List (List Nat)

/-- Canonical `PyVal` rendering of a peg state (lists of lists of ints),
the shape the demo exchanges with the predictor. -/
def pegsToPy (pegs : Pegs) : PyVal :=
  PyVal.list (pegs.map (fun peg => PyVal.list (peg.map (fun d => PyVal.int (Int.ofNat d)))))

/-- A proposed move: which disk, from which peg, to which peg. -/
structure HanoiMove where
  disk : Nat
  src : Nat
  dst : Nat

/-- One raw predictor output as the validator sees it: either a payload
that does not parse into a move plus claimed next-state, or a structured
candidate. -/
inductive RawCandidate where
  | malformed
  | structured (move : HanoiMove) (claimed : PyVal)

/-- The fixed set of rejection reasons (spec section 4.2). -/
inductive MoveReason where
  | illegal_source
  | illegal_destination
  | state_mismatch
  | malformed_output
deriving DecidableEq

/-- Result of validating one candidate (spec section 4.2). -/
inductive MoveValidity where
  | valid
  | invalid (reason : MoveReason)
deriving DecidableEq

/-- Performing a move on a peg state: pop the last (topmost) disk of the
source peg and push the moved disk onto the destination peg. -/
def applyMove (pegs : Pegs) (m : HanoiMove) : Pegs :=
  let srcPeg := pegs.getD m.src []
  let dstPeg := pegs.getD m.dst []
  (pegs.set m.src srcPeg.dropLast).set m.dst (dstPeg ++ [m.disk])

/-- Topmost (most accessible) disk of peg `i`, `Option.none` when the peg
is empty. -/
def topDisk (pegs : Pegs) (i : Nat) : Option Nat :=
  (pegs.getD i []).getLast?

/-- Modelled from the spec: `MoveValidator.validate` for the reference
peg-and-disk domain (section 4.2); the validator source is not under
`src/`.  A move is legal only if the source peg exists and is non-empty
with the moved disk topmost, the destination peg exists and is empty or
topped by a strictly larger disk, and the claimed next-state equals the
state obtained by performing the move, under `StateCodec` equality.
Unparseable payloads and out-of-range peg indices are `malformed_output`. -/
def validate (prev : Pegs) (c : RawCandidate) : MoveValidity :=
  match c with
  | .malformed => .invalid .malformed_output
  | .structured m claimed =>
    if m.src < prev.length ∧ m.dst < prev.length then
      match topDisk prev m.src with
      | Option.none => .invalid .illegal_source
      | Option.some top =>
        if top = m.disk then
          match topDisk prev m.dst with
          | Option.some dtop =>
            if m.disk < dtop then
              if codecEq claimed (pegsToPy (applyMove prev m)) then .valid
              else .invalid .state_mismatch
            else .invalid .illegal_destination
          | Option.none =>
            if codecEq claimed (pegsToPy (applyMove prev m)) then .valid
            else .invalid .state_mismatch
        else .invalid .illegal_source
    else .invalid .malformed_output

/-- Modelled from the spec: one voting round as `voting_call` resolves it
(sections 4.4, 4.5 step 6, 7(3)); the hooks source is not under `src/`.
Given the canonical keys of the round's valid candidates, the decision
comes from `MDAP.decide`; whenever a leader exists the round returns a
result dictionary carrying the winning state (rendered to a Python value
by `toPy`), red-flagged but still returned when not confident; only an
empty tally returns no result, with the `no_valid_candidates` flag. -/
def specRound {α : Type} [DecidableEq α] (samples : List α) (km : Nat)
    (toPy : α → PyVal) : Option VoteResult × Option RedFlag :=
  match MDAP.decide samples km with
  | Option.none => (Option.none, Option.some RedFlag.no_valid_candidates)
  | Option.some d =>
    (Option.some ⟨Option.some (toPy d.winner), Option.none⟩,
     if d.confident then Option.none
     else if d.margin = 0 then Option.some RedFlag.tie
     else Option.some RedFlag.low_confidence)

/-- A voter that always answers but never supplies a new state. -/
def idleVoter : Context → Option VoteResult :=
  fun _ => Option.some ⟨Option.none, Option.none⟩

/-- Canonical start state of the demo problem, `[[3, 2, 1], [], []]`
(demo_machine.py line 53). -/
def hanoiStartV : PyVal := pegsToPy [[3, 2, 1], [], []]

/-- Canonical goal state of the demo problem, `[[], [3, 2, 1], []]`
(demo_machine.py line 54). -/
def hanoiGoalV : PyVal := pegsToPy [[], [3, 2, 1], []]

/-- The goal state rendered with tuples instead of lists: a superficially
different representation of the same canonical state. -/
def tupleGoalV : PyVal :=
  PyVal.tuple [PyVal.tuple [],
    PyVal.tuple [PyVal.int 3, PyVal.int 2, PyVal.int 1], PyVal.tuple []]

/-- A voter whose predicted state is the tuple rendering of the goal. -/
def tupleVoter : Context → Option VoteResult :=
  fun _ => Option.some ⟨Option.some tupleGoalV, Option.none⟩

/-- A voter that predicts the tuple rendering of the goal at the first
round and gives no result afterwards. -/
def oneShotTupleVoter : Context → Option VoteResult :=
  fun ctx =>
    if ctx.step = 0 then Option.some ⟨Option.some tupleGoalV, Option.none⟩
    else Option.none

/-- A voter answering with a result that lacks the `predicted_state` key
but carries a `move` value. -/
def noStateVoter : Context → Option VoteResult :=
  fun _ => Option.some ⟨Option.none, Option.some (PyVal.int 5)⟩

/-- The known optimal trajectory of the 3-disk demo problem: 8 states,
start to goal, 7 moves. -/
def hanoiSeq : List Pegs :=
  [[[3, 2, 1], [], []],
   [[3, 2], [1], []],
   [[3], [1], [2]],
   [[3], [], [2, 1]],
   [[], [3], [2, 1]],
   [[1], [3], [2]],
   [[1], [3, 2], []],
   [[], [3, 2, 1], []]]

/-- Successor lookup along a state sequence, comparing the current Python
value against each state's canonical rendering. -/
def nextInSeq : List Pegs → PyVal → Option Pegs
  | a :: b :: rest, p =>
    if pyEq p (pegsToPy a) then Option.some b else nextInSeq (b :: rest) p
  | _, _ => Option.none

/-- The correct optimal next state for the 3-disk demo problem, when the
given state lies on the optimal trajectory short of the goal. -/
def hanoiNext (p : PyVal) : Option Pegs :=
  nextInSeq hanoiSeq p

/-- A perfect predictor: every voting round resolves to the correct
optimal next state. -/
def perfectVoter : Context → Option VoteResult :=
  fun ctx => (hanoiNext ctx.pegs).map
    (fun s => ⟨Option.some (pegsToPy s), Option.none⟩)

/-- The canonical keys of a perfect round's sample batch: `mc` agreeing
copies of the correct next state (none when no next state exists). -/
def perfectSamples (mc : Nat) (pegs : PyVal) : List Pegs :=
  match hanoiNext pegs with
  | Option.some s => List.replicate mc s
  | Option.none => []

/-- Fuel is irrelevant as soon as it covers the remaining budget, so the
fuel-based `runFrom` is a faithful rendering of the `while` loop. -/
theorem runFrom_fuel_irrelevant (voter : Context → Option VoteResult) :
    ∀ f g : Nat, ∀ ctx : Context, ∀ trace : List TraceEntry,
      20 ≤ f + ctx.step → 20 ≤ g + ctx.step →
      runFrom voter f ctx trace = runFrom voter g ctx trace := by
  intro f
  induction f with
  | zero =>
    intro g ctx trace hf hg
    cases g with
    | zero => rfl
    | succ g =>
      simp only [runFrom]
      have : ¬ ctx.step < 20 := by omega
      simp [this]
  | succ f ih =>
    intro g ctx trace hf hg
    cases g with
    | zero =>
      simp only [runFrom]
      have : ¬ ctx.step < 20 := by omega
      simp [this]
    | succ g =>
      simp only [runFrom]
      by_cases hstep : ctx.step < 20
      · simp only [hstep, if_true]
        by_cases hgoal : pyEq ctx.pegs ctx.goal
        · simp [hgoal]
        · simp only [Bool.not_eq_true] at hgoal
          simp only [hgoal]
          cases voter ctx with
          | none => simp
          | some r =>
            simp only
            exact ih g _ _ (show 20 ≤ f + (ctx.step + 1) by omega)
              (show 20 ≤ g + (ctx.step + 1) by omega)
      · simp [hstep]

theorem le_maxCount {α : Type} (t : List (α × Nat)) :
    ∀ p ∈ t, p.2 ≤ maxCount t := by
  induction t with
  | nil => intro p hp; cases hp
  | cons q t ih =>
    intro p hp
    rcases List.mem_cons.mp hp with rfl | hp
    · simp [maxCount, Nat.le_max_left]
    · have := ih p hp
      simp only [maxCount, List.foldr_cons] at *
      omega

theorem maxCount_le {α : Type} (t : List (α × Nat)) (c : Nat)
    (h : ∀ p ∈ t, p.2 ≤ c) : maxCount t ≤ c := by
  induction t with
  | nil => simp [maxCount]
  | cons q t ih =>
    have hq := h q (by simp)
    have ht := ih (fun p hp => h p (by simp [hp]))
    simp only [maxCount, List.foldr_cons] at *
    omega

theorem maxCount_mem {α : Type} (t : List (α × Nat)) (h : t ≠ []) :
    ∃ p ∈ t, p.2 = maxCount t := by
  induction t with
  | nil => simp at h
  | cons q t ih =>
    cases t with
    | nil =>
      refine ⟨q, by simp, ?_⟩
      simp [maxCount]
    | cons q' t' =>
      rcases ih (by simp) with ⟨p, hp, hpc⟩
      by_cases hc : q.2 ≤ maxCount (q' :: t')
      · refine ⟨p, by simp [hp], ?_⟩
        simp only [maxCount, List.foldr_cons] at *
        omega
      · refine ⟨q, by simp, ?_⟩
        simp only [maxCount, List.foldr_cons] at *
        omega

/-- Every entry of a tally pairs a key with its count in the candidate
list. -/
theorem tally_mem {α : Type} [DecidableEq α] {cs : List α} {p : α × Nat}
    (h : p ∈ MDAP.tally cs) : p.2 = cs.count p.1 := by
  simp only [MDAP.tally, List.mem_map] at h
  rcases h with ⟨k, _, rfl⟩
  rfl

/-- Distinct entries of a tally carry distinct keys. -/
theorem tally_keys_nodup {α : Type} [DecidableEq α] (cs : List α) :
    ((MDAP.tally cs).map Prod.fst).Nodup := by
  have : (MDAP.tally cs).map Prod.fst = cs.dedup := by
    simp [MDAP.tally, List.map_map, Function.comp_def]
  rw [this]
  exact List.nodup_dedup cs

/-- C1: for every candidate set whose tally has a unique maximum-count key
with margin (winner count minus second-highest count, taking the second
count as `0` when only one distinct key exists) at least `k_margin`, the
decide operation returns that key as the winner with `confident = true`. -/
theorem decide_unique_max_confident {α : Type} [DecidableEq α]
    (cs : List α) (km : Nat) (k : α) (c1 : Nat)
    (hmem : (k, c1) ∈ MDAP.tally cs)
    (huniq : ∀ p ∈ MDAP.tally cs, p.1 ≠ k → p.2 < c1)
    (hmargin : km ≤ c1 - MDAP.secondCount (MDAP.tally cs) k) :
    MDAP.decide cs km =
      Option.some ⟨k, c1 - MDAP.secondCount (MDAP.tally cs) k, true⟩ := by
  have hck : c1 = cs.count k := tally_mem hmem
  have hle : ∀ p ∈ MDAP.tally cs, p.2 ≤ c1 := by
    intro p hp
    by_cases hk : p.1 = k
    · have h1 := tally_mem hp
      rw [h1, hk, ← hck]
    · exact Nat.le_of_lt (huniq p hp hk)
  have hmax : maxCount (MDAP.tally cs) = c1 :=
    Nat.le_antisymm (maxCount_le _ c1 hle) (le_maxCount _ (k, c1) hmem)
  have hfind : List.find? (fun p => p.2 == c1) (MDAP.tally cs) =
      Option.some (k, c1) := by
    have hsome : (List.find? (fun p => p.2 == c1) (MDAP.tally cs)).isSome := by
      rw [List.find?_isSome]
      exact ⟨(k, c1), hmem, by simp⟩
    rcases Option.isSome_iff_exists.mp hsome with ⟨p, hp⟩
    obtain ⟨pk, pc⟩ := p
    have hpt := List.mem_of_find?_eq_some hp
    have hpc : pc = c1 := by
      have := List.find?_some hp
      simpa using this
    have hpk : pk = k := by
      by_contra hne
      have := huniq (pk, pc) hpt hne
      omega
    rw [hp, hpk, hpc]
  simp only [MDAP.decide, hmax, hfind]
  simp [hmargin]

/-- C1 witness: the candidate list `[0, 0, 1]` with `k_margin = 1` has the
unique maximum key `0` with margin `1`, and decide marks it confident. -/
theorem decide_unique_max_confident_witness :
    MDAP.decide [0, 0, 1] 1 =
      Option.some ⟨0, 2 - MDAP.secondCount (MDAP.tally [0, 0, 1]) 0, true⟩ :=
  decide_unique_max_confident [0, 0, 1] 1 0 2 (by decide) (by decide) (by decide)

/-- C2: for every candidate set in which two distinct keys share the top
count of the tally, the decide operation returns `confident = false` for
every (valid, hence positive) value of `k_margin`: the margin is `0`,
regardless of absolute counts. -/
theorem decide_tie_not_confident {α : Type} [DecidableEq α]
    (cs : List α) (km : Nat) (k1 k2 : α) (c : Nat)
    (h1 : (k1, c) ∈ MDAP.tally cs) (h2 : (k2, c) ∈ MDAP.tally cs)
    (hne : k1 ≠ k2) (htop : ∀ p ∈ MDAP.tally cs, p.2 ≤ c) (hkm : 1 ≤ km) :
    ∃ d, MDAP.decide cs km = Option.some d ∧
      d.confident = false ∧ d.margin = 0 := by
  have hmax : maxCount (MDAP.tally cs) = c :=
    Nat.le_antisymm (maxCount_le _ c htop) (le_maxCount _ (k1, c) h1)
  have hsome : (List.find? (fun p => p.2 == c) (MDAP.tally cs)).isSome := by
    rw [List.find?_isSome]
    exact ⟨(k1, c), h1, by simp⟩
  rcases Option.isSome_iff_exists.mp hsome with ⟨p, hp⟩
  obtain ⟨pk, pc⟩ := p
  have hpt := List.mem_of_find?_eq_some hp
  have hpc : pc = c := by
    have := List.find?_some hp
    simpa using this
  have hsecond : MDAP.secondCount (MDAP.tally cs) pk = c := by
    have hother : ∃ q ∈ MDAP.tally cs, q.2 = c ∧ q.1 ≠ pk := by
      by_cases hk1 : k1 = pk
      · exact ⟨(k2, c), h2, rfl, by rw [← hk1]; exact fun h => hne h.symm⟩
      · exact ⟨(k1, c), h1, rfl, hk1⟩
    rcases hother with ⟨q, hq, hqc, hqk⟩
    have hmemf : q ∈ (MDAP.tally cs).filter (fun p => !(p.1 == pk)) := by
      rw [List.mem_filter]
      exact ⟨hq, by simp [hqk]⟩
    have hge : c ≤ MDAP.secondCount (MDAP.tally cs) pk := by
      have := le_maxCount _ q hmemf
      rw [hqc] at this
      exact this
    have hlef : MDAP.secondCount (MDAP.tally cs) pk ≤ c := by
      apply maxCount_le
      intro r hr
      exact htop r (List.mem_filter.mp hr).1
    omega
  refine ⟨⟨pk, pc - MDAP.secondCount (MDAP.tally cs) pk,
    Decidable.decide (km ≤ pc - MDAP.secondCount (MDAP.tally cs) pk)⟩, ?_, ?_, ?_⟩
  · simp only [MDAP.decide, hmax, hp]
  · show Decidable.decide (km ≤ pc - MDAP.secondCount (MDAP.tally cs) pk) = false
    simp only [decide_eq_false_iff_not]
    rw [hpc, hsecond]
    omega
  · show pc - MDAP.secondCount (MDAP.tally cs) pk = 0
    rw [hpc, hsecond]
    omega

/-- C2 witness: the candidate list `[0, 1]` ties its two keys at count `1`;
with `k_margin = 1` decide is not confident and the margin is `0`. -/
theorem decide_tie_not_confident_witness :
    ∃ d, MDAP.decide ([0, 1] : List Nat) 1 = Option.some d ∧
      d.confident = false ∧ d.margin = 0 :=
  decide_tie_not_confident [0, 1] 1 0 1 1
    (by decide) (by decide) (by decide) (by decide) (by decide)

theorem bumpReason_sum (l : List (RedFlag × Nat)) (r : RedFlag) :
    ((bumpReason l r).map Prod.snd).sum = (l.map Prod.snd).sum + 1 := by
  induction l with
  | nil => simp [bumpReason]
  | cons q rest ih =>
    obtain ⟨r', c⟩ := q
    by_cases h : r' = r
    · simp [bumpReason, h]
      omega
    · simp [bumpReason, h, ih]
      omega

theorem recordStep_invariant (m : MDAPMetrics) (samples : Nat)
    (flag : Option RedFlag) (h : metricsInvariant m) :
    metricsInvariant (m.recordStep samples flag) := by
  obtain ⟨hs, hf⟩ := h
  constructor
  · simp [MDAPMetrics.recordStep, hs]
  · cases flag with
    | none => simpa [MDAPMetrics.recordStep] using hf
    | some r =>
      simp [MDAPMetrics.recordStep, bumpReason_sum, hf]

/-- C3: after every sequence of orchestrator steps (each contributing its
sample count and an optional red flag), the metrics snapshot satisfies
`sum(samples_per_step) == total_samples` and
`sum(red_flags_by_reason.values()) == total_red_flags`. -/
theorem metrics_invariant_after_any_steps (steps : List (Nat × Option RedFlag)) :
    metricsInvariant
      (steps.foldl (fun m s => m.recordStep s.1 s.2) MDAPMetrics.init) := by
  have hgen : ∀ (steps : List (Nat × Option RedFlag)) (m : MDAPMetrics),
      metricsInvariant m →
      metricsInvariant (steps.foldl (fun m s => m.recordStep s.1 s.2) m) := by
    intro steps
    induction steps with
    | nil => intro m hm; exact hm
    | cons s rest ih =>
      intro m hm
      exact ih _ (recordStep_invariant m s.1 s.2 hm)
  exact hgen steps MDAPMetrics.init (by constructor <;> simp [MDAPMetrics.init])

/-- C7: constructing an `MDAPConfig` with `max_candidates < k_margin`, or
with non-positive `k_margin` or `max_candidates`, fails at construction
time (the constructor returns an error, issuing no sampling call). -/
theorem config_make_rejects_invalid (km mc : Int)
    (h : mc < km ∨ km ≤ 0 ∨ mc ≤ 0) :
    ∃ e, MDAPConfig.make km mc = Except.error e := by
  unfold MDAPConfig.make
  by_cases h1 : km ≤ 0
  · exact ⟨ConfigError.non_positive_k_margin, by simp [h1]⟩
  · by_cases h2 : mc ≤ 0
    · exact ⟨ConfigError.non_positive_max_candidates, by simp [h1, h2]⟩
    · have h3 : mc < km := by omega
      exact ⟨ConfigError.max_candidates_below_k_margin, by simp [h1, h2, h3]⟩

/-- C7 witness: `max_candidates = 1 < 2 = k_margin` is rejected. -/
theorem config_make_rejects_invalid_witness :
    ∃ e, MDAPConfig.make 2 1 = Except.error e :=
  config_make_rejects_invalid 2 1 (Or.inl (by decide))

/-- C8: for the reference peg-and-disk domain the validator accepts a
candidate move iff the source peg is non-empty with the moved disk
topmost, the destination peg is empty or topped by a strictly larger
disk, and the claimed next-state equals the result of performing the move
under `StateCodec` equality (peg indices in range); rejections carry a
reason from the fixed four-element `MoveReason` set by construction,
malformed payloads are `malformed_output`, and moving from the empty peg 1
of `[[3, 2, 1], [], []]` is rejected as `illegal_source`. -/
theorem validate_accepts_iff :
    (∀ (prev : Pegs) (m : HanoiMove) (claimed : PyVal),
      validate prev (.structured m claimed) = .valid ↔
        ((m.src < prev.length ∧ m.dst < prev.length) ∧
          topDisk prev m.src = Option.some m.disk ∧
          (topDisk prev m.dst = Option.none ∨
            ∃ dtop, topDisk prev m.dst = Option.some dtop ∧
              m.disk < dtop) ∧
          codecEq claimed (pegsToPy (applyMove prev m)) = true)) ∧
    (∀ prev : Pegs, validate prev .malformed = .invalid .malformed_output) ∧
    validate [[3, 2, 1], [], []]
      (.structured ⟨1, 1, 0⟩ (pegsToPy [[3, 2, 1], [], []])) =
      .invalid .illegal_source := by
  refine ⟨?_, fun prev => rfl, by decide⟩
  intro prev m claimed
  by_cases hrange : m.src < prev.length ∧ m.dst < prev.length
  · cases hsrc : topDisk prev m.src with
    | none => simp [validate, hrange, hsrc]
    | some top =>
      by_cases hdisk : top = m.disk
      · cases hdst : topDisk prev m.dst with
        | none =>
          by_cases hstate : codecEq claimed (pegsToPy (applyMove prev m)) = true
          · simp [validate, hrange, hsrc, hdisk, hdst, hstate]
          · simp [validate, hrange, hsrc, hdisk, hdst, hstate]
        | some dtop =>
          by_cases hlt : m.disk < dtop
          · by_cases hstate : codecEq claimed (pegsToPy (applyMove prev m)) = true
            · simp [validate, hrange, hsrc, hdisk, hdst, hlt, hstate]
            · simp [validate, hrange, hsrc, hdisk, hdst, hlt, hstate]
          · simp [validate, hrange, hsrc, hdisk, hdst, hlt]
      · simp [validate, hrange, hsrc, hdisk]
  · simp [validate, hrange]

/-- C8 witness: the spec's concrete legal case — in state
`[[3, 2, 1], [], []]` moving disk 1 from peg 0 to peg 2 with claimed
next-state `[[3, 2], [], [1]]` is accepted. -/
theorem validate_accepts_iff_witness :
    validate [[3, 2, 1], [], []]
      (.structured ⟨1, 0, 2⟩ (pegsToPy [[3, 2], [], [1]])) = .valid :=
  (validate_accepts_iff.1 [[3, 2, 1], [], []] ⟨1, 0, 2⟩
      (pegsToPy [[3, 2], [], [1]])).mpr
    ⟨by decide, by decide, Or.inl (by decide), by decide⟩

/-- A non-empty candidate list always yields a decision. -/
theorem decide_isSome {α : Type} [DecidableEq α] (cs : List α) (km : Nat)
    (h : cs ≠ []) : (MDAP.decide cs km).isSome = true := by
  have ht : MDAP.tally cs ≠ [] := by
    simp only [MDAP.tally, ne_eq, List.map_eq_nil_iff, List.dedup_eq_nil]
    exact h
  obtain ⟨p, hp, hpc⟩ := maxCount_mem _ ht
  have hsome : (List.find? (fun q => q.2 == maxCount (MDAP.tally cs))
      (MDAP.tally cs)).isSome := by
    rw [List.find?_isSome]
    exact ⟨p, hp, by simp [hpc]⟩
  rcases Option.isSome_iff_exists.mp hsome with ⟨q, hq⟩
  obtain ⟨qk, qc⟩ := q
  simp [MDAP.decide, hq]

/-- Run never exits before the budget while the voter keeps answering. -/
theorem runFrom_no_early_exit (voter : Context → Option VoteResult)
    (hv : ∀ ctx, voter ctx ≠ Option.none) :
    ∀ (f : Nat) (ctx : Context) (trace : List TraceEntry),
      ctx.step ≤ 20 → 20 ≤ f + ctx.step →
      ((runFrom voter f ctx trace).1.solved = true ∨
        (runFrom voter f ctx trace).1.step = 20) := by
  intro f
  induction f with
  | zero =>
    intro ctx trace hle hf
    right
    simp only [runFrom]
    omega
  | succ f ih =>
    intro ctx trace hle hf
    simp only [runFrom]
    by_cases hstep : ctx.step < 20
    · simp only [hstep, if_true]
      by_cases hgoal : pyEq ctx.pegs ctx.goal
      · simp [hgoal]
      · simp only [Bool.not_eq_true] at hgoal
        simp only [hgoal]
        cases hvr : voter ctx with
        | none => exact absurd hvr (hv ctx)
        | some r =>
          exact ih _ _ (by simp; omega) (by simp; omega)
    · right
      simp [hstep]
      omega

/-- C4: red flags and inconclusive rounds do not halt the run — the
orchestrator applies the winning state and continues.  First conjunct:
whenever the voting call answers at every decision point (which, by the
spec-modelled `specRound`, covers every red-flagged or inconclusive round
that has a leader — second conjunct: any round with at least one valid
candidate returns a result), the run ends only by reaching the goal
(`solved`) or by exhausting the full step budget, never by an early halt;
the caller always receives the completed trace (`run` is total and
returns it) plus metrics. -/
theorem run_continues_despite_flags :
    (∀ (voter : Context → Option VoteResult) (initial goal : PyVal),
      (∀ ctx, voter ctx ≠ Option.none) →
      ((run voter initial goal).1.solved = true ∨
        (run voter initial goal).1.step = 20)) ∧
    (∀ (α : Type) [DecidableEq α] (samples : List α) (km : Nat)
      (toPy : α → PyVal), samples ≠ [] →
      ((specRound samples km toPy).1).isSome = true) := by
  constructor
  · intro voter initial goal hv
    exact runFrom_no_early_exit voter hv 20 _ _ (by simp) (by simp)
  · intro α _ samples km toPy hs
    have hd2 := decide_isSome samples km hs
    cases hd : MDAP.decide samples km with
    | none => rw [hd] at hd2; simp at hd2
    | some d => simp [specRound, hd]

/-- C4 witness: with a voter that answers at every round, the run from
`[[1], [], []]` towards `[[], [1], []]` ends solved or with the full
20-step budget, and a one-candidate round returns a result. -/
theorem run_continues_despite_flags_witness :
    ((run idleVoter (pegsToPy [[1], [], []]) (pegsToPy [[], [1], []])).1.solved = true ∨
      (run idleVoter (pegsToPy [[1], [], []]) (pegsToPy [[], [1], []])).1.step = 20) ∧
    ((specRound ([0] : List Nat) 1 (fun _ => PyVal.none)).1).isSome = true :=
  ⟨run_continues_despite_flags.1 idleVoter (pegsToPy [[1], [], []])
      (pegsToPy [[], [1], []]) (by intro ctx h; simp [idleVoter] at h),
   run_continues_despite_flags.2 Nat [0] 1 (fun _ => PyVal.none) (by simp)⟩

/-- The loop never pushes `step` beyond the budget. -/
theorem runFrom_step_le (voter : Context → Option VoteResult) :
    ∀ (f : Nat) (ctx : Context) (trace : List TraceEntry), ctx.step ≤ 20 →
      (runFrom voter f ctx trace).1.step ≤ 20 := by
  intro f
  induction f with
  | zero => intro ctx trace hle; simpa [runFrom] using hle
  | succ f ih =>
    intro ctx trace hle
    simp only [runFrom]
    by_cases hstep : ctx.step < 20
    · simp only [hstep, if_true]
      by_cases hgoal : pyEq ctx.pegs ctx.goal
      · simpa [hgoal] using hle
      · simp only [Bool.not_eq_true] at hgoal
        simp only [hgoal]
        cases voter ctx with
        | none => simpa using hle
        | some r => exact ih _ _ (by simp; omega)
    · simpa [hstep] using hle

/-- Each loop iteration appends exactly one trace entry as it increments
`step` by one. -/
theorem runFrom_trace_length (voter : Context → Option VoteResult) :
    ∀ (f : Nat) (ctx : Context) (trace : List TraceEntry),
      (runFrom voter f ctx trace).2.length + ctx.step =
        trace.length + (runFrom voter f ctx trace).1.step := by
  intro f
  induction f with
  | zero => intro ctx trace; simp [runFrom]
  | succ f ih =>
    intro ctx trace
    simp only [runFrom]
    by_cases hstep : ctx.step < 20
    · simp only [hstep, if_true]
      by_cases hgoal : pyEq ctx.pegs ctx.goal
      · simp [hgoal]
      · simp only [Bool.not_eq_true] at hgoal
        simp only [hgoal, Bool.false_eq_true, if_false]
        cases voter ctx with
        | none => simp
        | some r =>
          have h := ih
            { pegs := r.predicted_state.getD ctx.pegs, goal := ctx.goal,
              previous_move := r.move.getD PyVal.none,
              step := ctx.step + 1, solved := ctx.solved }
            (trace ++ [⟨copyPegs (r.predicted_state.getD ctx.pegs), ctx.step + 1,
              Option.some (r.move.getD PyVal.none)⟩])
          simp only [List.length_append, List.length_cons, List.length_nil] at h
          show (runFrom voter f
              { pegs := r.predicted_state.getD ctx.pegs, goal := ctx.goal,
                previous_move := r.move.getD PyVal.none,
                step := ctx.step + 1, solved := ctx.solved }
              (trace ++ [⟨copyPegs (r.predicted_state.getD ctx.pegs), ctx.step + 1,
                Option.some (r.move.getD PyVal.none)⟩])).2.length + ctx.step =
            trace.length + (runFrom voter f
              { pegs := r.predicted_state.getD ctx.pegs, goal := ctx.goal,
                previous_move := r.move.getD PyVal.none,
                step := ctx.step + 1, solved := ctx.solved }
              (trace ++ [⟨copyPegs (r.predicted_state.getD ctx.pegs), ctx.step + 1,
                Option.some (r.move.getD PyVal.none)⟩])).1.step
          omega
    · simp [hstep]

/-- C6: for every behaviour of the voting call (any sequence of results,
`None` included — the voter is an arbitrary function of the loop
context), the run loop stops with `step` at most the fixed budget of 20,
and always returns a completed trace of exactly `step + 1` recorded
states (budget exhaustion yields that unsolved trace, not an error). -/
theorem run_respects_step_budget (voter : Context → Option VoteResult)
    (initial goal : PyVal) :
    (run voter initial goal).1.step ≤ 20 ∧
    (run voter initial goal).2.length = (run voter initial goal).1.step + 1 := by
  constructor
  · exact runFrom_step_le voter 20 _ _ (by simp)
  · have h := runFrom_trace_length voter 20
      ⟨copyPegs initial, goal, PyVal.none, 0, false⟩
      [⟨copyPegs (copyPegs initial), 0, Option.none⟩]
    have h0 : (⟨copyPegs initial, goal, PyVal.none, 0, false⟩ : Context).step = 0 :=
      rfl
    rw [h0] at h
    simp only [List.length_cons, List.length_nil] at h
    simp only [run]
    omega

/-- C5 counterexample: the claim fails on the code.  When the winning
state of the first voting round arrives as the tuple rendering of the
goal, line 106 stores it raw — `result.get('predicted_state', ...)` is
applied without normalization (only the initial pegs of line 76 and the
trace copies of lines 83/111 go through `[list(p) for p in ...]`) — so
from step 1 on the current state is `StateCodec`-equal to the goal; yet
the goal test of line 87 compares with Python `==`, which distinguishes
tuples from lists, so the loop never reports the goal reached and the run
ends unsolved at that codec-equal state. -/
theorem goal_test_misses_codec_equal_goal :
    codecEq tupleGoalV hanoiGoalV = true ∧
    pyEq tupleGoalV hanoiGoalV = false ∧
    (run oneShotTupleVoter hanoiStartV hanoiGoalV).1.solved = false ∧
    (run oneShotTupleVoter hanoiStartV hanoiGoalV).1.step = 1 ∧
    codecEq (run oneShotTupleVoter hanoiStartV hanoiGoalV).1.pegs hanoiGoalV
      = true := by
  decide

/-- C5 amended: at every iteration the goal-reached test compares the
current state to the goal with Python structural equality (`pyEq`), not
`StateCodec` equality — whenever the raw representations are structurally
equal (and budget remains) the loop stops solved. -/
theorem goal_test_is_python_equality (voter : Context → Option VoteResult)
    (ctx : Context) (trace : List TraceEntry) (f : Nat)
    (hstep : ctx.step < 20) (heq : pyEq ctx.pegs ctx.goal = true) :
    runFrom voter (f + 1) ctx trace = ({ ctx with solved := true }, trace) := by
  simp [runFrom, hstep, heq]

/-- C5 amended witness: starting at the goal itself, the loop stops at
once and marks the run solved. -/
theorem goal_test_is_python_equality_witness :
    runFrom tupleVoter 20 ⟨hanoiGoalV, hanoiGoalV, PyVal.none, 0, false⟩ [] =
      (⟨hanoiGoalV, hanoiGoalV, PyVal.none, 0, true⟩, []) :=
  goal_test_is_python_equality tupleVoter
    ⟨hanoiGoalV, hanoiGoalV, PyVal.none, 0, false⟩ [] 19 (by decide) (by decide)

/-- C10: when a voting round returns a result whose payload lacks the
`predicted_state` key, the step leaves `pegs` unchanged
(`result.get('predicted_state', context['pegs'])` falls back to the
current pegs), while `step` still increments, `previous_move` is set to
the retrieved (possibly `None`) move, and the move is recorded in the
appended trace entry (whose pegs are the line-111 copy of those unchanged
context pegs); `pegs` changes only when the result supplies a
`predicted_state`. -/
theorem step_without_predicted_state_keeps_pegs
    (voter : Context → Option VoteResult) (ctx : Context)
    (trace : List TraceEntry) (f : Nat) (r : VoteResult)
    (hstep : ctx.step < 20) (hgoal : pyEq ctx.pegs ctx.goal = false)
    (hv : voter ctx = Option.some r) (hps : r.predicted_state = Option.none) :
    runFrom voter (f + 1) ctx trace =
      runFrom voter f
        { pegs := ctx.pegs, goal := ctx.goal,
          previous_move := r.move.getD PyVal.none,
          step := ctx.step + 1, solved := ctx.solved }
        (trace ++ [⟨copyPegs ctx.pegs, ctx.step + 1,
          Option.some (r.move.getD PyVal.none)⟩]) := by
  simp [runFrom, hstep, hgoal, hv, hps]

/-- C10 witness: a round whose payload has a `move` but no
`predicted_state` increments the step, records the move, and keeps the
start pegs unchanged. -/
theorem step_without_predicted_state_keeps_pegs_witness :
    runFrom noStateVoter 20 ⟨hanoiStartV, hanoiGoalV, PyVal.none, 0, false⟩ [] =
      runFrom noStateVoter 19
        ⟨hanoiStartV, hanoiGoalV, PyVal.int 5, 1, false⟩
        [⟨copyPegs hanoiStartV, 1, Option.some (PyVal.int 5)⟩] :=
  step_without_predicted_state_keeps_pegs noStateVoter
    ⟨hanoiStartV, hanoiGoalV, PyVal.none, 0, false⟩ [] 19
    ⟨Option.none, Option.some (PyVal.int 5)⟩ (by decide) (by decide) rfl rfl

theorem dedup_replicate {α : Type} [DecidableEq α] (s : α) (n : Nat)
    (h : 1 ≤ n) : (List.replicate n s).dedup = [s] := by
  induction n with
  | zero => omega
  | succ n ih =>
    cases n with
    | zero => simp
    | succ m =>
      rw [List.replicate_succ,
        List.dedup_cons_of_mem (by simp [List.mem_replicate])]
      exact ih (by omega)

theorem tally_replicate {α : Type} [DecidableEq α] (s : α) (n : Nat)
    (h : 1 ≤ n) : MDAP.tally (List.replicate n s) = [(s, n)] := by
  simp [MDAP.tally, dedup_replicate s n h, List.count_replicate_self]

/-- A unanimous batch of `n ≥ k_margin ≥ 1` agreeing samples is decided
confidently for the shared key with margin `n`. -/
theorem decide_replicate {α : Type} [DecidableEq α] (s : α) (km n : Nat)
    (h1 : 1 ≤ km) (h2 : km ≤ n) :
    MDAP.decide (List.replicate n s) km = Option.some ⟨s, n, true⟩ := by
  have ht := tally_replicate s n (by omega)
  simp only [MDAP.decide, ht]
  simp [maxCount, MDAP.secondCount, List.find?, h2]

/-- C9: from `[[3, 2, 1], [], []]` towards `[[], [3, 2, 1], []]` with step
budget 20, a perfect predictor reaches the goal in exactly 7 steps with
zero red flags.  First conjunct: the run stops solved at step 7.  Second:
for any valid configuration (`1 ≤ k_margin ≤ max_candidates`), the
spec-modelled voting round over a perfect sample batch returns exactly
the perfect voter's result — so the run shown is the run of those rounds.
Third: every round that has a correct next state to report (as all 7
executed rounds do) raises no red flag. -/
theorem perfect_predictor_solves_in_seven_steps (km mc : Nat)
    (h1 : 1 ≤ km) (h2 : km ≤ mc) :
    ((run perfectVoter hanoiStartV hanoiGoalV).1.step = 7 ∧
      (run perfectVoter hanoiStartV hanoiGoalV).1.solved = true) ∧
    (∀ ctx : Context,
      (specRound (perfectSamples mc ctx.pegs) km pegsToPy).1 = perfectVoter ctx) ∧
    (∀ (pegs : PyVal) (s : Pegs), hanoiNext pegs = Option.some s →
      (specRound (perfectSamples mc pegs) km pegsToPy).2 = Option.none) := by
  refine ⟨by decide, ?_, ?_⟩
  · intro ctx
    cases h : hanoiNext ctx.pegs with
    | none =>
      simp [perfectSamples, h, specRound, MDAP.decide, MDAP.tally, perfectVoter]
    | some s =>
      simp [perfectSamples, h, specRound,
        decide_replicate s km mc h1 h2, perfectVoter]
  · intro pegs s h
    simp [perfectSamples, h, specRound, decide_replicate s km mc h1 h2]

/-- C9 witness: with `k_margin = 1` and `max_candidates = 3` the run is
solved at step 7 and the first round (from the start state) raises no red
flag. -/
theorem perfect_predictor_solves_in_seven_steps_witness :
    ((run perfectVoter hanoiStartV hanoiGoalV).1.step = 7 ∧
      (run perfectVoter hanoiStartV hanoiGoalV).1.solved = true) ∧
    (specRound (perfectSamples 3 hanoiStartV) 1 pegsToPy).2 = Option.none :=
  ⟨(perfect_predictor_solves_in_seven_steps 1 3 (by decide) (by decide)).1,
   (perfect_predictor_solves_in_seven_steps 1 3 (by decide) (by decide)).2.2
     hanoiStartV [[3, 2], [1], []] (by decide)⟩
